import Mathlib

/-!
Verification of `scripts/generate_awesome_list.py` (MyAwsomeList).

The script fetches a user's starred GitHub repositories, classifies each new
one with an LLM call, caches classification results in a JSON file, and
renders a categorized Markdown list.  We shallowly embed its pure core:

* a starred repository item (`Repo`) as delivered by the GitHub API, parsed
  from JSON into a Python dict.  Fields that the code reads only via
  `dict.get(key, default)` are modelled with an outer `Option` (key present
  or not) around an inner value that itself may be `Option` when the JSON
  value can be `null`.  Fields the code indexes directly (`repo["full_name"]`,
  `repo["html_url"]`, `repo["stargazers_count"]` in `process_new_stars`) are
  modelled as always present, matching the GitHub API schema.
* a cache entry (`Entry`) and the cache as an insertion-ordered association
  list (`Cache`), modelling a Python dict (unique keys, insertion order
  preserved, updates keep position).
* `categorize_with_llm`, with the Anthropic call + JSON parse of the response
  abstracted into an oracle `llm : Repo → Option (String × String)`
  (`none` = any exception in the `try` block: network error, malformed JSON,
  missing field) and the wall-clock timestamp as a parameter `now`.
* `process_new_stars` as a fold over the fetched list.
* the pure string-building core of `generate_readme`, with the operations
  that can raise in Python (`name.split("/")[1]`) returning `Option`.
* `load_cache` with the filesystem and `json.load` abstracted.
-/

namespace AwesomeList

/-- Cache entry, mirroring the dict built by `categorize_with_llm` and stored
under `cache[full_name]`.  `language` has an outer `Option` because
`generate_readme` reads it defensively via `data.get("language", "")` (the
key can be absent from a hand-edited cache file); the inner `Option String`
is the Python value, which may be `None` (JSON `null`). -/
structure Entry where
  category : String
  description : String
  url : String
  stars : Nat
  language : Option (Option String)
  processed_at : String
deriving DecidableEq

/-- A starred repository item from the GitHub API.  `description`, `topics`
and `language` are read by the code via `repo.get`, so we keep an outer
`Option` for key presence; `description` and `language` values may be JSON
`null` (inner `Option`). -/
structure Repo where
  full_name : String
  description : Option (Option String)
  topics : Option (List String)
  language : Option (Option String)
  stargazers_count : Nat
  html_url : String
deriving DecidableEq

/-- The cache: a Python dict `full_name ↦ entry`, as an insertion-ordered
association list. -/
abbrev Cache := List (String × Entry)

/-- Python dict lookup: first (and, for a dict, only) binding of the key. -/
def cacheLookup : Cache → String → Option Entry
  | [], _ => none
  | (k', v') :: rest, k => if k' = k then some v' else cacheLookup rest k

/-- Python dict assignment `cache[k] = v`: replace the first binding of `k`
in place (dicts keep the original position on update), or append a new
binding at the end. -/
def cacheSet : Cache → String → Entry → Cache
  | [], k, v => [(k, v)]
  | (k', v') :: rest, k, v =>
    if k' = k then (k, v) :: rest else (k', v') :: cacheSet rest k v

/-- Value of `repo.get("description", "No description provided")`. -/
def Repo.getDescription (r : Repo) : Option String :=
  match r.description with
  | none => some "No description provided"
  | some v => v

/-- Value of `repo.get("language", "Unknown")`. -/
def Repo.getLanguage (r : Repo) : Option String :=
  match r.language with
  | none => some "Unknown"
  | some v => v

/-- Python truthiness of an optional string: `None` and `""` are falsy. -/
def strTruthy : Option String → Bool
  | none => false
  | some s => s ≠ ""

/-- Embedding of `categorize_with_llm`.  The prompt construction and the
remote call are abstracted into the oracle `llm`; `some (cat, desc)` means
the call succeeded and the response parsed into a JSON object whose
`"category"` and `"description"` fields were read successfully, `none` means
any exception was raised in the `try` block.  `now` stands for
`datetime.utcnow().isoformat()`.  The `except` branch is the deterministic
fallback: `language if language else "Other"` and
`description or "Interesting repository"` (Python truthiness). -/
def categorize_with_llm (llm : Repo → Option (String × String)) (now : String)
    (repo : Repo) : Entry :=
  let description := repo.getDescription
  let language := repo.getLanguage
  match llm repo with
  | some (cat, desc) =>
    { category := cat, description := desc, url := repo.html_url,
      stars := repo.stargazers_count, language := some language,
      processed_at := now }
  | none =>
    { category := match language with
        | some s => if s = "" then "Other" else s
        | none => "Other"
      description := match description with
        | some s => if s = "" then "Interesting repository" else s
        | none => "Interesting repository"
      url := repo.html_url, stars := repo.stargazers_count,
      language := some language, processed_at := now }

/-- The three counters local to `process_new_stars`. -/
structure Summary where
  new_count : Nat
  updated_count : Nat
  processed_new : Nat
deriving DecidableEq

/-- The guard `self.dry_run and self.limit and processed_new >= self.limit`;
`self.limit` is `None` or an integer, falsy when `None` or `0`. -/
def limitHit (dry_run : Bool) (limit : Option Nat) (processed_new : Nat) : Bool :=
  dry_run && (match limit with
    | none => false
    | some l => decide (l ≠ 0) && decide (processed_new ≥ l))

/-- One iteration of the `for repo in stars` loop of `process_new_stars`,
acting on the pair (cache, counters). -/
def stepStar (dry_run : Bool) (limit : Option Nat)
    (llm : Repo → Option (String × String)) (now : String)
    (st : Cache × Summary) (repo : Repo) : Cache × Summary :=
  match cacheLookup st.1 repo.full_name with
  | some entry =>
    if entry.stars ≠ repo.stargazers_count then
      (cacheSet st.1 repo.full_name { entry with stars := repo.stargazers_count },
       { st.2 with updated_count := st.2.updated_count + 1 })
    else st
  | none =>
    if limitHit dry_run limit st.2.processed_new then
      (st.1, { st.2 with new_count := st.2.new_count + 1 })
    else
      (cacheSet st.1 repo.full_name (categorize_with_llm llm now repo),
       { st.2 with new_count := st.2.new_count + 1,
                   processed_new := st.2.processed_new + 1 })

/-- Embedding of `process_new_stars`: fold the loop body over the fetched
list, starting from the given cache and zeroed counters.  Returns the
(mutated) cache together with the final counters; the reported "skipped"
count is `new_count - processed_new`. -/
def process_new_stars (dry_run : Bool) (limit : Option Nat)
    (llm : Repo → Option (String × String)) (now : String)
    (stars : List Repo) (cache : Cache) : Cache × Summary :=
  stars.foldl (stepStar dry_run limit llm now) (cache, ⟨0, 0, 0⟩)

/-- First repo in fetch order with the given `full_name`. -/
def findFirst : List Repo → String → Option Repo
  | [], _ => none
  | r :: rest, k => if r.full_name = k then some r else findFirst rest k

/-- Last repo in fetch order with the given `full_name`. -/
def findLast : List Repo → String → Option Repo
  | [], _ => none
  | r :: rest, k =>
    match findLast rest k with
    | some x => some x
    | none => if r.full_name = k then some r else none

/-! Basic lemmas about the dict operations. -/

theorem cacheLookup_set_self (c : Cache) (k : String) (v : Entry) :
    cacheLookup (cacheSet c k v) k = some v := by
  induction c with
  | nil => simp [cacheSet, cacheLookup]
  | cons p rest ih =>
    obtain ⟨k', v'⟩ := p
    by_cases h : k' = k
    · simp [cacheSet, cacheLookup, h]
    · simp [cacheSet, cacheLookup, h, ih]

theorem cacheLookup_set_ne (c : Cache) (k k' : String) (v : Entry) (h : k' ≠ k) :
    cacheLookup (cacheSet c k v) k' = cacheLookup c k' := by
  induction c with
  | nil => simp [cacheSet, cacheLookup, h, Ne.symm h]
  | cons p rest ih =>
    obtain ⟨k₀, v₀⟩ := p
    by_cases hk : k₀ = k
    · subst hk
      simp [cacheSet, cacheLookup, h, Ne.symm h]
    · by_cases hk' : k₀ = k'
      · simp [cacheSet, cacheLookup, hk, hk', h]
      · simp [cacheSet, cacheLookup, hk, hk', ih]

theorem cacheSet_of_absent (c : Cache) (k : String) (v : Entry)
    (h : cacheLookup c k = none) : cacheSet c k v = c ++ [(k, v)] := by
  induction c with
  | nil => simp [cacheSet]
  | cons p rest ih =>
    obtain ⟨k₀, v₀⟩ := p
    by_cases hk : k₀ = k
    · simp [cacheLookup, hk] at h
    · simp [cacheLookup, hk] at h
      simp [cacheSet, hk, ih h]

theorem cacheLookup_append (c₁ c₂ : Cache) (k : String) :
    cacheLookup (c₁ ++ c₂) k =
      match cacheLookup c₁ k with
      | some v => some v
      | none => cacheLookup c₂ k := by
  induction c₁ with
  | nil => simp [cacheLookup]
  | cons p rest ih =>
    obtain ⟨k₀, v₀⟩ := p
    by_cases hk : k₀ = k
    · simp [cacheLookup, hk]
    · simp [cacheLookup, hk, ih]

theorem cacheSet_length (c : Cache) (k : String) (v : Entry)
    (h : (cacheLookup c k).isSome) : (cacheSet c k v).length = c.length := by
  induction c with
  | nil => simp [cacheLookup] at h
  | cons p rest ih =>
    obtain ⟨k₀, v₀⟩ := p
    by_cases hk : k₀ = k
    · simp [cacheSet, hk]
    · simp [cacheLookup, hk] at h
      simp [cacheSet, hk, ih h]

theorem entry_set_stars_self (e : Entry) : ({ e with stars := e.stars } : Entry) = e :=
  rfl

theorem categorize_stars (llm : Repo → Option (String × String)) (now : String)
    (repo : Repo) :
    (categorize_with_llm llm now repo).stars = repo.stargazers_count := by
  unfold categorize_with_llm
  rcases llm repo with _ | ⟨cat, desc⟩ <;> rfl

/-! Lemmas about one loop iteration of `process_new_stars`. -/

theorem stepStar_fst_of_ne (dr : Bool) (lim : Option Nat)
    (llm : Repo → Option (String × String)) (now : String)
    (c : Cache) (s : Summary) (repo : Repo) (k : String)
    (h : repo.full_name ≠ k) :
    cacheLookup (stepStar dr lim llm now (c, s) repo).1 k = cacheLookup c k := by
  unfold stepStar
  rcases hl : cacheLookup c repo.full_name with _ | e
  · simp only []
    by_cases hlim : limitHit dr lim s.processed_new
    · simp [hlim]
    · simp [hlim, cacheLookup_set_ne _ _ _ _ (Ne.symm h)]
  · simp only []
    by_cases hst : e.stars ≠ repo.stargazers_count
    · simp [hst, cacheLookup_set_ne _ _ _ _ (Ne.symm h)]
    · simp [hst]

theorem stepStar_fst_of_cached (dr : Bool) (lim : Option Nat)
    (llm : Repo → Option (String × String)) (now : String)
    (c : Cache) (s : Summary) (repo : Repo) (e : Entry)
    (h : cacheLookup c repo.full_name = some e) :
    cacheLookup (stepStar dr lim llm now (c, s) repo).1 repo.full_name =
      some { e with stars := repo.stargazers_count } := by
  unfold stepStar
  rw [h]
  by_cases hst : e.stars ≠ repo.stargazers_count
  · simp [hst, cacheLookup_set_self]
  · push_neg at hst
    simp only [ne_eq, hst, not_true_eq_false, if_neg, if_false]
    rw [h, ← hst]

theorem stepStar_fst_of_new (dr : Bool) (lim : Option Nat)
    (llm : Repo → Option (String × String)) (now : String)
    (c : Cache) (s : Summary) (repo : Repo)
    (h : cacheLookup c repo.full_name = none)
    (hlim : limitHit dr lim s.processed_new = false) :
    cacheLookup (stepStar dr lim llm now (c, s) repo).1 repo.full_name =
      some (categorize_with_llm llm now repo) := by
  unfold stepStar
  rw [h]
  simp [hlim, cacheLookup_set_self]

theorem stepStar_mono (dr : Bool) (lim : Option Nat)
    (llm : Repo → Option (String × String)) (now : String)
    (c : Cache) (s : Summary) (repo : Repo) (k : String)
    (h : (cacheLookup c k).isSome) :
    (cacheLookup (stepStar dr lim llm now (c, s) repo).1 k).isSome := by
  by_cases hk : repo.full_name = k
  · subst hk
    obtain ⟨e, he⟩ := Option.isSome_iff_exists.mp h
    rw [stepStar_fst_of_cached dr lim llm now c s repo e he]
    rfl
  · rw [stepStar_fst_of_ne dr lim llm now c s repo k hk]
    exact h

theorem entry_set_stars_of_eq (e : Entry) (n : Nat) (h : e.stars = n) :
    ({ e with stars := n } : Entry) = e := by
  cases e
  cases h
  rfl

theorem limitHit_none (dr : Bool) (p : Nat) : limitHit dr none p = false := by
  simp [limitHit]

theorem limitHit_zero (dr : Bool) (p : Nat) : limitHit dr (some 0) p = false := by
  simp [limitHit]

theorem findFirst_cons (r : Repo) (rest : List Repo) (k : String) :
    findFirst (r :: rest) k =
      if r.full_name = k then some r else findFirst rest k := rfl

theorem findLast_cons (r : Repo) (rest : List Repo) (k : String) :
    findLast (r :: rest) k =
      match findLast rest k with
      | some x => some x
      | none => if r.full_name = k then some r else none := rfl

theorem findLast_cons_ne (r : Repo) (rest : List Repo) (k : String)
    (h : r.full_name ≠ k) : findLast (r :: rest) k = findLast rest k := by
  rw [findLast_cons]
  rcases findLast rest k with _ | x <;> simp [h]

theorem findLast_isSome_of_mem (stars : List Repo) (r : Repo) (h : r ∈ stars) :
    (findLast stars r.full_name).isSome := by
  induction stars with
  | nil => cases h
  | cons r' rest ih =>
    rcases List.mem_cons.mp h with h | h
    · subst h
      rw [findLast_cons]
      rcases findLast rest r.full_name with _ | x <;> simp
    · rw [findLast_cons]
      have hm := ih h
      rcases hfl : findLast rest r.full_name with _ | x
      · rw [hfl] at hm
        simp at hm
      · simp

/-- Final lookup at a key that is already cached: the entry is unchanged
except that its `stars` field ends at the popularity of the last fetched
item with that `full_name` (if any).  Holds for every mode and ceiling,
since cached identifiers never reach the ceiling branch. -/
theorem foldl_lookup_of_cached (dr : Bool) (lim : Option Nat)
    (llm : Repo → Option (String × String)) (now : String) (stars : List Repo) :
    ∀ (c : Cache) (s : Summary) (k : String) (e : Entry),
      cacheLookup c k = some e →
      cacheLookup (stars.foldl (stepStar dr lim llm now) (c, s)).1 k =
        some (match findLast stars k with
          | none => e
          | some rl => { e with stars := rl.stargazers_count }) := by
  induction stars with
  | nil =>
    intro c s k e h
    simpa [findLast] using h
  | cons r rest ih =>
    intro c s k e h
    rw [List.foldl_cons]
    rcases hst : stepStar dr lim llm now (c, s) r with ⟨c', s'⟩
    by_cases hk : r.full_name = k
    · subst hk
      have hstep := stepStar_fst_of_cached dr lim llm now c s r e h
      rw [hst] at hstep
      dsimp only at hstep
      have := ih c' s' r.full_name { e with stars := r.stargazers_count } hstep
      rw [this, findLast_cons]
      rcases findLast rest r.full_name with _ | rl <;> simp
    · have hstep := stepStar_fst_of_ne dr lim llm now c s r k hk
      rw [hst] at hstep
      dsimp only at hstep
      rw [ih c' s' k e (hstep.trans h), findLast_cons_ne r rest k hk]

/-- Full characterization of the final cache lookup for a run without a
ceiling (`limit = None`, so the skip branch is never taken): a key untouched
by the fetched list keeps its old value; a cached key keeps its entry with
`stars` refreshed to the last fetched value; a new key gets the
classification of its first fetched occurrence, with `stars` refreshed to
the last fetched value. -/
theorem foldl_lookup_no_limit (dr : Bool)
    (llm : Repo → Option (String × String)) (now : String) (stars : List Repo) :
    ∀ (c : Cache) (s : Summary) (k : String),
      cacheLookup (stars.foldl (stepStar dr none llm now) (c, s)).1 k =
        match findLast stars k, cacheLookup c k, findFirst stars k with
        | none, _, _ => cacheLookup c k
        | some rl, some e, _ => some { e with stars := rl.stargazers_count }
        | some rl, none, some rf =>
            some { categorize_with_llm llm now rf with stars := rl.stargazers_count }
        | some _, none, none => none := by
  induction stars with
  | nil =>
    intro c s k
    simp [findLast, findFirst]
  | cons r rest ih =>
    intro c s k
    rw [List.foldl_cons]
    rcases hst : stepStar dr none llm now (c, s) r with ⟨c', s'⟩
    by_cases hk : r.full_name = k
    · subst hk
      rcases hc : cacheLookup c r.full_name with _ | e
      · have hstep := stepStar_fst_of_new dr none llm now c s r hc
          (limitHit_none dr s.processed_new)
        rw [hst] at hstep
        dsimp only at hstep
        have := foldl_lookup_of_cached dr none llm now rest c' s' r.full_name
          (categorize_with_llm llm now r) hstep
        dsimp only
        rw [this, findLast_cons, findFirst_cons]
        rcases findLast rest r.full_name with _ | rl
        · simp [hc, entry_set_stars_of_eq _ _ (categorize_stars llm now r)]
        · simp [hc]
      · have hstep := stepStar_fst_of_cached dr none llm now c s r e hc
        rw [hst] at hstep
        dsimp only at hstep
        have := foldl_lookup_of_cached dr none llm now rest c' s' r.full_name
          { e with stars := r.stargazers_count } hstep
        dsimp only
        rw [this, findLast_cons, findFirst_cons]
        rcases findLast rest r.full_name with _ | rl <;> simp [hc]
    · have hstep := stepStar_fst_of_ne dr none llm now c s r k hk
      rw [hst] at hstep
      dsimp only at hstep
      dsimp only
      rw [ih c' s' k, hstep, findLast_cons_ne r rest k hk, findFirst_cons]
      simp [hk]

/-- Keys present in the cache stay present through a whole run. -/
theorem foldl_mono (dr : Bool) (lim : Option Nat)
    (llm : Repo → Option (String × String)) (now : String) (stars : List Repo) :
    ∀ (c : Cache) (s : Summary) (k : String),
      (cacheLookup c k).isSome →
      (cacheLookup (stars.foldl (stepStar dr lim llm now) (c, s)).1 k).isSome := by
  induction stars with
  | nil => intro c s k h; simpa using h
  | cons r rest ih =>
    intro c s k h
    rw [List.foldl_cons]
    rcases hst : stepStar dr lim llm now (c, s) r with ⟨c', s'⟩
    have := stepStar_mono dr lim llm now c s r k h
    rw [hst] at this
    exact ih c' s' k this

theorem stepStar_fst_length_of_cached (dr : Bool) (lim : Option Nat)
    (llm : Repo → Option (String × String)) (now : String)
    (c : Cache) (s : Summary) (repo : Repo)
    (h : (cacheLookup c repo.full_name).isSome) :
    (stepStar dr lim llm now (c, s) repo).1.length = c.length := by
  obtain ⟨e, he⟩ := Option.isSome_iff_exists.mp h
  unfold stepStar
  rw [he]
  by_cases hst : e.stars ≠ repo.stargazers_count
  · simp [hst, cacheSet_length _ _ _ h]
  · simp [hst]

/-- When every fetched identifier is already cached, a run inserts nothing:
the cache size is unchanged. -/
theorem foldl_length_of_all_cached (dr : Bool) (lim : Option Nat)
    (llm : Repo → Option (String × String)) (now : String) (stars : List Repo) :
    ∀ (c : Cache) (s : Summary),
      (∀ r ∈ stars, (cacheLookup c r.full_name).isSome) →
      ((stars.foldl (stepStar dr lim llm now) (c, s)).1).length = c.length := by
  induction stars with
  | nil => intro c s _; rfl
  | cons r rest ih =>
    intro c s h
    rw [List.foldl_cons]
    rcases hst : stepStar dr lim llm now (c, s) r with ⟨c', s'⟩
    have hlen := stepStar_fst_length_of_cached dr lim llm now c s r (h r (by simp))
    rw [hst] at hlen
    have hrest : ∀ r' ∈ rest, (cacheLookup c' r'.full_name).isSome := by
      intro r' hr'
      have := stepStar_mono dr lim llm now c s r r'.full_name
        (h r' (by simp [hr']))
      rw [hst] at this
      exact this
    rw [ih c' s' hrest, hlen]

theorem findFirst_none_findLast (stars : List Repo) (k : String)
    (h : findFirst stars k = none) : findLast stars k = none := by
  induction stars with
  | nil => rfl
  | cons r rest ih =>
    rw [findFirst_cons] at h
    by_cases hk : r.full_name = k
    · simp [hk] at h
    · rw [findLast_cons, ih (by simpa [hk] using h)]
      simp [hk]

/-- In a run without a ceiling, every fetched identifier ends up present in
the cache. -/
theorem foldl_mem_isSome (dr : Bool)
    (llm : Repo → Option (String × String)) (now : String) (stars : List Repo)
    (c : Cache) (s : Summary) (r : Repo) (hr : r ∈ stars) :
    (cacheLookup (stars.foldl (stepStar dr none llm now) (c, s)).1
      r.full_name).isSome := by
  have hl := findLast_isSome_of_mem stars r hr
  obtain ⟨rl, hrl⟩ := Option.isSome_iff_exists.mp hl
  have h1 := foldl_lookup_no_limit dr llm now stars c s r.full_name
  rw [hrl] at h1
  rcases hcc : cacheLookup c r.full_name with _ | e
  · rw [hcc] at h1
    rcases hff : findFirst stars r.full_name with _ | rf
    · rw [findFirst_none_findLast _ _ hff] at hrl
      cases hrl
    · rw [hff] at h1
      rw [h1]
      rfl
  · rw [hcc] at h1
    rw [h1]
    rfl

theorem stepStar_eq_new (dr : Bool) (lim : Option Nat)
    (llm : Repo → Option (String × String)) (now : String)
    (c : Cache) (s : Summary) (repo : Repo)
    (h : cacheLookup c repo.full_name = none)
    (hlim : limitHit dr lim s.processed_new = false) :
    stepStar dr lim llm now (c, s) repo =
      (cacheSet c repo.full_name (categorize_with_llm llm now repo),
       { s with new_count := s.new_count + 1,
                processed_new := s.processed_new + 1 }) := by
  unfold stepStar
  rw [h]
  simp [hlim]

theorem stepStar_eq_skip (dr : Bool) (lim : Option Nat)
    (llm : Repo → Option (String × String)) (now : String)
    (c : Cache) (s : Summary) (repo : Repo)
    (h : cacheLookup c repo.full_name = none)
    (hlim : limitHit dr lim s.processed_new = true) :
    stepStar dr lim llm now (c, s) repo =
      (c, { s with new_count := s.new_count + 1 }) := by
  unfold stepStar
  rw [h]
  simp [hlim]

theorem cacheLookup_append_none (c₁ c₂ : Cache) (k : String)
    (h : cacheLookup c₁ k = none) :
    cacheLookup (c₁ ++ c₂) k = cacheLookup c₂ k := by
  rw [cacheLookup_append, h]

/-- C2: in preview mode with a ceiling of 3, a fetched list of five distinct
identifiers all absent from the cache leads to exactly the first three being
classified and inserted (in fetch order), the last two being counted as new
but left absent from the cache, a new-count of 5, a processed-count of 3,
and hence a reported skipped count `new_count - processed_new` of 2. -/
theorem C2_preview_ceiling (llm : Repo → Option (String × String))
    (now : String) (cache : Cache) (r0 r1 r2 r3 r4 : Repo)
    (hnd : ([r0, r1, r2, r3, r4].map Repo.full_name).Nodup)
    (habs : ∀ r ∈ [r0, r1, r2, r3, r4], cacheLookup cache r.full_name = none) :
    (process_new_stars true (some 3) llm now [r0, r1, r2, r3, r4] cache).1 =
      cache ++ [(r0.full_name, categorize_with_llm llm now r0),
                (r1.full_name, categorize_with_llm llm now r1),
                (r2.full_name, categorize_with_llm llm now r2)]
    ∧ cacheLookup (process_new_stars true (some 3) llm now
        [r0, r1, r2, r3, r4] cache).1 r3.full_name = none
    ∧ cacheLookup (process_new_stars true (some 3) llm now
        [r0, r1, r2, r3, r4] cache).1 r4.full_name = none
    ∧ (process_new_stars true (some 3) llm now
        [r0, r1, r2, r3, r4] cache).2.new_count = 5
    ∧ (process_new_stars true (some 3) llm now
        [r0, r1, r2, r3, r4] cache).2.processed_new = 3
    ∧ (process_new_stars true (some 3) llm now
          [r0, r1, r2, r3, r4] cache).2.new_count
        - (process_new_stars true (some 3) llm now
          [r0, r1, r2, r3, r4] cache).2.processed_new = 2 := by
  simp only [List.map_cons, List.map_nil, List.nodup_cons, List.mem_cons,
    List.not_mem_nil, or_false, not_or, List.nodup_nil, and_true] at hnd
  obtain ⟨⟨h01, h02, h03, h04⟩, ⟨h12, h13, h14⟩, ⟨h23, h24⟩, h34⟩ := hnd
  have ha0 := habs r0 (by simp)
  have ha1 := habs r1 (by simp)
  have ha2 := habs r2 (by simp)
  have ha3 := habs r3 (by simp)
  have ha4 := habs r4 (by simp)
  have hs0 : stepStar true (some 3) llm now (cache, ⟨0, 0, 0⟩) r0 =
      (cache ++ [(r0.full_name, categorize_with_llm llm now r0)], ⟨1, 0, 1⟩) := by
    rw [stepStar_eq_new true (some 3) llm now cache ⟨0, 0, 0⟩ r0 ha0 rfl,
      cacheSet_of_absent _ _ _ ha0]
  have hl1 : cacheLookup
      (cache ++ [(r0.full_name, categorize_with_llm llm now r0)])
      r1.full_name = none := by
    rw [cacheLookup_append_none _ _ _ ha1]
    simp [cacheLookup, h01]
  have hs1 : stepStar true (some 3) llm now
      (cache ++ [(r0.full_name, categorize_with_llm llm now r0)], ⟨1, 0, 1⟩) r1 =
      (cache ++ [(r0.full_name, categorize_with_llm llm now r0),
                 (r1.full_name, categorize_with_llm llm now r1)], ⟨2, 0, 2⟩) := by
    rw [stepStar_eq_new true (some 3) llm now _ ⟨1, 0, 1⟩ r1 hl1 rfl,
      cacheSet_of_absent _ _ _ hl1]
    simp
  have hl2 : cacheLookup
      (cache ++ [(r0.full_name, categorize_with_llm llm now r0),
                 (r1.full_name, categorize_with_llm llm now r1)])
      r2.full_name = none := by
    rw [cacheLookup_append_none _ _ _ ha2]
    simp [cacheLookup, h02, h12]
  have hs2 : stepStar true (some 3) llm now
      (cache ++ [(r0.full_name, categorize_with_llm llm now r0),
                 (r1.full_name, categorize_with_llm llm now r1)], ⟨2, 0, 2⟩) r2 =
      (cache ++ [(r0.full_name, categorize_with_llm llm now r0),
                 (r1.full_name, categorize_with_llm llm now r1),
                 (r2.full_name, categorize_with_llm llm now r2)], ⟨3, 0, 3⟩) := by
    rw [stepStar_eq_new true (some 3) llm now _ ⟨2, 0, 2⟩ r2 hl2 rfl,
      cacheSet_of_absent _ _ _ hl2]
    simp
  have hl3 : cacheLookup
      (cache ++ [(r0.full_name, categorize_with_llm llm now r0),
                 (r1.full_name, categorize_with_llm llm now r1),
                 (r2.full_name, categorize_with_llm llm now r2)])
      r3.full_name = none := by
    rw [cacheLookup_append_none _ _ _ ha3]
    simp [cacheLookup, h03, h13, h23]
  have hs3 : stepStar true (some 3) llm now
      (cache ++ [(r0.full_name, categorize_with_llm llm now r0),
                 (r1.full_name, categorize_with_llm llm now r1),
                 (r2.full_name, categorize_with_llm llm now r2)], ⟨3, 0, 3⟩) r3 =
      (cache ++ [(r0.full_name, categorize_with_llm llm now r0),
                 (r1.full_name, categorize_with_llm llm now r1),
                 (r2.full_name, categorize_with_llm llm now r2)], ⟨4, 0, 3⟩) := by
    rw [stepStar_eq_skip true (some 3) llm now _ ⟨3, 0, 3⟩ r3 hl3 rfl]
  have hl4 : cacheLookup
      (cache ++ [(r0.full_name, categorize_with_llm llm now r0),
                 (r1.full_name, categorize_with_llm llm now r1),
                 (r2.full_name, categorize_with_llm llm now r2)])
      r4.full_name = none := by
    rw [cacheLookup_append_none _ _ _ ha4]
    simp [cacheLookup, h04, h14, h24]
  have hs4 : stepStar true (some 3) llm now
      (cache ++ [(r0.full_name, categorize_with_llm llm now r0),
                 (r1.full_name, categorize_with_llm llm now r1),
                 (r2.full_name, categorize_with_llm llm now r2)], ⟨4, 0, 3⟩) r4 =
      (cache ++ [(r0.full_name, categorize_with_llm llm now r0),
                 (r1.full_name, categorize_with_llm llm now r1),
                 (r2.full_name, categorize_with_llm llm now r2)], ⟨5, 0, 3⟩) := by
    rw [stepStar_eq_skip true (some 3) llm now _ ⟨4, 0, 3⟩ r4 hl4 rfl]
  have hrun : process_new_stars true (some 3) llm now [r0, r1, r2, r3, r4] cache =
      (cache ++ [(r0.full_name, categorize_with_llm llm now r0),
                 (r1.full_name, categorize_with_llm llm now r1),
                 (r2.full_name, categorize_with_llm llm now r2)], ⟨5, 0, 3⟩) := by
    unfold process_new_stars
    rw [List.foldl_cons, hs0, List.foldl_cons, hs1, List.foldl_cons, hs2,
      List.foldl_cons, hs3, List.foldl_cons, hs4, List.foldl_nil]
  refine ⟨by rw [hrun], ?_, ?_, by rw [hrun], by rw [hrun], by simp [hrun]⟩
  · rw [hrun]
    exact hl3
  · rw [hrun]
    exact hl4

theorem C2_preview_ceiling_witness :
    (process_new_stars true (some 3) (fun _ => none) "t"
      [⟨"o/p0", some none, some [], some none, 0, "u0"⟩,
       ⟨"o/p1", some none, some [], some none, 1, "u1"⟩,
       ⟨"o/p2", some none, some [], some none, 2, "u2"⟩,
       ⟨"o/p3", some none, some [], some none, 3, "u3"⟩,
       ⟨"o/p4", some none, some [], some none, 4, "u4"⟩] []).1 =
      [] ++ [("o/p0", categorize_with_llm (fun _ => none) "t"
                ⟨"o/p0", some none, some [], some none, 0, "u0"⟩),
             ("o/p1", categorize_with_llm (fun _ => none) "t"
                ⟨"o/p1", some none, some [], some none, 1, "u1"⟩),
             ("o/p2", categorize_with_llm (fun _ => none) "t"
                ⟨"o/p2", some none, some [], some none, 2, "u2"⟩)]
    ∧ cacheLookup (process_new_stars true (some 3) (fun _ => none) "t"
        [⟨"o/p0", some none, some [], some none, 0, "u0"⟩,
         ⟨"o/p1", some none, some [], some none, 1, "u1"⟩,
         ⟨"o/p2", some none, some [], some none, 2, "u2"⟩,
         ⟨"o/p3", some none, some [], some none, 3, "u3"⟩,
         ⟨"o/p4", some none, some [], some none, 4, "u4"⟩] []).1 "o/p3" = none
    ∧ cacheLookup (process_new_stars true (some 3) (fun _ => none) "t"
        [⟨"o/p0", some none, some [], some none, 0, "u0"⟩,
         ⟨"o/p1", some none, some [], some none, 1, "u1"⟩,
         ⟨"o/p2", some none, some [], some none, 2, "u2"⟩,
         ⟨"o/p3", some none, some [], some none, 3, "u3"⟩,
         ⟨"o/p4", some none, some [], some none, 4, "u4"⟩] []).1 "o/p4" = none
    ∧ (process_new_stars true (some 3) (fun _ => none) "t"
        [⟨"o/p0", some none, some [], some none, 0, "u0"⟩,
         ⟨"o/p1", some none, some [], some none, 1, "u1"⟩,
         ⟨"o/p2", some none, some [], some none, 2, "u2"⟩,
         ⟨"o/p3", some none, some [], some none, 3, "u3"⟩,
         ⟨"o/p4", some none, some [], some none, 4, "u4"⟩] []).2.new_count = 5
    ∧ (process_new_stars true (some 3) (fun _ => none) "t"
        [⟨"o/p0", some none, some [], some none, 0, "u0"⟩,
         ⟨"o/p1", some none, some [], some none, 1, "u1"⟩,
         ⟨"o/p2", some none, some [], some none, 2, "u2"⟩,
         ⟨"o/p3", some none, some [], some none, 3, "u3"⟩,
         ⟨"o/p4", some none, some [], some none, 4, "u4"⟩] []).2.processed_new = 3
    ∧ (process_new_stars true (some 3) (fun _ => none) "t"
          [⟨"o/p0", some none, some [], some none, 0, "u0"⟩,
           ⟨"o/p1", some none, some [], some none, 1, "u1"⟩,
           ⟨"o/p2", some none, some [], some none, 2, "u2"⟩,
           ⟨"o/p3", some none, some [], some none, 3, "u3"⟩,
           ⟨"o/p4", some none, some [], some none, 4, "u4"⟩] []).2.new_count
        - (process_new_stars true (some 3) (fun _ => none) "t"
          [⟨"o/p0", some none, some [], some none, 0, "u0"⟩,
           ⟨"o/p1", some none, some [], some none, 1, "u1"⟩,
           ⟨"o/p2", some none, some [], some none, 2, "u2"⟩,
           ⟨"o/p3", some none, some [], some none, 3, "u3"⟩,
           ⟨"o/p4", some none, some [], some none, 4, "u4"⟩] []).2.processed_new = 2 :=
  C2_preview_ceiling (fun _ => none) "t" []
    ⟨"o/p0", some none, some [], some none, 0, "u0"⟩
    ⟨"o/p1", some none, some [], some none, 1, "u1"⟩
    ⟨"o/p2", some none, some [], some none, 2, "u2"⟩
    ⟨"o/p3", some none, some [], some none, 3, "u3"⟩
    ⟨"o/p4", some none, some [], some none, 4, "u4"⟩
    (by decide) (by decide)

/-- C1: whenever the Classifier's remote call raises or returns unparseable
content (`llm repo = none`), the fallback result's category equals the
item's language label, or "Other" if the language is absent (JSON `null`),
and its description equals the item's raw description, or the fixed
placeholder "Interesting repository" if the description is absent.  The
hypotheses `hlang`/`hdesc` say the item carries the `language` and
`description` fields (as every GitHub API item does; their values may be
`null`), and `hlv`/`hdv` exclude the out-of-schema empty-string values.
The fallback is a total Lean function, so it never raises. -/
theorem C1_classifier_fallback (llm : Repo → Option (String × String))
    (now : String) (repo : Repo) (langv descv : Option String)
    (hfail : llm repo = none)
    (hlang : repo.language = some langv)
    (hdesc : repo.description = some descv)
    (hlv : langv ≠ some "")
    (hdv : descv ≠ some "") :
    (categorize_with_llm llm now repo).category =
      (match langv with | some l => l | none => "Other")
    ∧ (categorize_with_llm llm now repo).description =
      (match descv with | some d => d | none => "Interesting repository") := by
  simp only [categorize_with_llm, Repo.getDescription, Repo.getLanguage,
    hfail, hlang, hdesc]
  rcases langv with _ | l <;> rcases descv with _ | d
  · exact ⟨rfl, rfl⟩
  · have hd : d ≠ "" := fun h => hdv (by rw [h])
    simp [hd]
  · have hl : l ≠ "" := fun h => hlv (by rw [h])
    simp [hl]
  · have hd : d ≠ "" := fun h => hdv (by rw [h])
    have hl : l ≠ "" := fun h => hlv (by rw [h])
    simp [hd, hl]

theorem C1_classifier_fallback_witness :
    (categorize_with_llm (fun _ => none) "2024-01-01T00:00:00"
      ⟨"octocat/hello", some (some "A greeting"), some [], some (some "Python"),
        7, "https://example.invalid/hello"⟩).category = "Python"
    ∧ (categorize_with_llm (fun _ => none) "2024-01-01T00:00:00"
      ⟨"octocat/hello", some (some "A greeting"), some [], some (some "Python"),
        7, "https://example.invalid/hello"⟩).description = "A greeting" :=
  C1_classifier_fallback (fun _ => none) "2024-01-01T00:00:00"
    ⟨"octocat/hello", some (some "A greeting"), some [], some (some "Python"),
      7, "https://example.invalid/hello"⟩
    (some "Python") (some "A greeting") rfl rfl rfl (by decide) (by decide)

/-- C3: with no ceiling configured, a second run of the Reconciler on the
same fetched list leaves the cache mapping pointwise unchanged, and inserts
nothing (the cache size is unchanged). -/
theorem C3_reconciler_idempotent (dr : Bool)
    (llm : Repo → Option (String × String)) (now : String)
    (stars : List Repo) (cache : Cache) :
    (∀ k, cacheLookup (process_new_stars dr none llm now stars
        (process_new_stars dr none llm now stars cache).1).1 k =
      cacheLookup (process_new_stars dr none llm now stars cache).1 k)
    ∧ (process_new_stars dr none llm now stars
        (process_new_stars dr none llm now stars cache).1).1.length =
      (process_new_stars dr none llm now stars cache).1.length := by
  constructor
  · intro k
    unfold process_new_stars
    rw [foldl_lookup_no_limit dr llm now stars _ _ k]
    have h1 := foldl_lookup_no_limit dr llm now stars cache ⟨0, 0, 0⟩ k
    rcases hfl : findLast stars k with _ | rl
    · rfl
    · rw [hfl] at h1
      rcases hcc : cacheLookup cache k with _ | e
      · rw [hcc] at h1
        rcases hff : findFirst stars k with _ | rf
        · rw [hff] at h1
          rw [h1]
        · rw [hff] at h1
          rw [h1]
      · rw [hcc] at h1
        rw [h1]
  · unfold process_new_stars
    apply foldl_length_of_all_cached
    intro r hr
    exact foldl_mem_isSome dr llm now stars cache ⟨0, 0, 0⟩ r hr

/-- C4: for an identifier already cached, reconciliation refreshes only the
`stars` field, to the popularity of the last fetched occurrence of that
identifier; category, description, url, language and processed_at are
untouched, and when the popularity is unchanged, the entry is unchanged
entirely.  Holds in every mode and for every ceiling. -/
theorem C4_popularity_refresh (dr : Bool) (lim : Option Nat)
    (llm : Repo → Option (String × String)) (now : String)
    (stars : List Repo) (cache : Cache) (k : String) (e : Entry) (r : Repo)
    (hc : cacheLookup cache k = some e)
    (hl : findLast stars k = some r) :
    ∃ e', cacheLookup (process_new_stars dr lim llm now stars cache).1 k = some e'
      ∧ e'.stars = r.stargazers_count
      ∧ e'.category = e.category ∧ e'.description = e.description
      ∧ e'.url = e.url ∧ e'.language = e.language
      ∧ e'.processed_at = e.processed_at
      ∧ (r.stargazers_count = e.stars → e' = e) := by
  have h := foldl_lookup_of_cached dr lim llm now stars cache ⟨0, 0, 0⟩ k e hc
  rw [hl] at h
  exact ⟨_, h, rfl, rfl, rfl, rfl, rfl, rfl,
    fun hs => entry_set_stars_of_eq e _ hs.symm⟩

theorem C4_popularity_refresh_witness :
    ∃ e', cacheLookup (process_new_stars false none (fun _ => none) "t"
        [⟨"o/a", some none, some [], some none, 25, "u"⟩]
        [("o/a", ⟨"Tools", "d", "u", 10, some (some "Go"), "t0"⟩)]).1 "o/a" = some e'
      ∧ e'.stars = 25
      ∧ e'.category = "Tools" ∧ e'.description = "d"
      ∧ e'.url = "u" ∧ e'.language = some (some "Go")
      ∧ e'.processed_at = "t0"
      ∧ (25 = 10 → e' = (⟨"Tools", "d", "u", 10, some (some "Go"), "t0"⟩ : Entry)) :=
  C4_popularity_refresh false none (fun _ => none) "t"
    [⟨"o/a", some none, some [], some none, 25, "u"⟩]
    [("o/a", ⟨"Tools", "d", "u", 10, some (some "Go"), "t0"⟩)]
    "o/a" ⟨"Tools", "d", "u", 10, some (some "Go"), "t0"⟩
    ⟨"o/a", some none, some [], some none, 25, "u"⟩ (by decide) (by decide)

/-- C10: when preview mode is off, or the configured ceiling is 0 (falsy in
Python), the ceiling has no effect: the run equals the no-ceiling run, and
every fetched identifier (in particular every one absent from the cache) is
present in the cache afterwards. -/
theorem C10_ceiling_inert (dr : Bool) (lim : Option Nat)
    (llm : Repo → Option (String × String)) (now : String)
    (stars : List Repo) (cache : Cache)
    (h : dr = false ∨ lim = some 0) :
    process_new_stars dr lim llm now stars cache =
      process_new_stars false none llm now stars cache
    ∧ ∀ r ∈ stars,
        (cacheLookup (process_new_stars dr lim llm now stars cache).1
          r.full_name).isSome := by
  have hlim : ∀ p, limitHit dr lim p = false := by
    rcases h with h | h <;> subst h <;> intro p
    · simp [limitHit]
    · exact limitHit_zero dr p
  have hfun : stepStar dr lim llm now = stepStar false none llm now := by
    funext st repo
    unfold stepStar
    rcases cacheLookup st.1 repo.full_name with _ | e
    · rw [hlim st.2.processed_new, limitHit_none]
    · rfl
  have hrun : process_new_stars dr lim llm now stars cache =
      process_new_stars false none llm now stars cache := by
    unfold process_new_stars
    rw [hfun]
  refine ⟨hrun, fun r hr => ?_⟩
  rw [hrun]
  exact foldl_mem_isSome false llm now stars cache ⟨0, 0, 0⟩ r hr

theorem C10_ceiling_inert_witness :
    process_new_stars false (some 7) (fun _ => none) "t"
        [⟨"o/a", some none, some [], some none, 3, "u"⟩] [] =
      process_new_stars false none (fun _ => none) "t"
        [⟨"o/a", some none, some [], some none, 3, "u"⟩] []
    ∧ ∀ r ∈ [(⟨"o/a", some none, some [], some none, 3, "u"⟩ : Repo)],
        (cacheLookup (process_new_stars false (some 7) (fun _ => none) "t"
          [⟨"o/a", some none, some [], some none, 3, "u"⟩] []).1
          r.full_name).isSome :=
  C10_ceiling_inert false (some 7) (fun _ => none) "t"
    [⟨"o/a", some none, some [], some none, 3, "u"⟩] [] (Or.inl rfl)

/-- Boolean condition under which `process_new_stars` invokes the Classifier
for `repo` in the current state: the identifier misses the cache and the
ceiling branch is not taken. -/
def classifiesNow (dry_run : Bool) (limit : Option Nat) (cache : Cache)
    (s : Summary) (repo : Repo) : Bool :=
  (cacheLookup cache repo.full_name).isNone
    && !(limitHit dry_run limit s.processed_new)

/-- Instrumented loop body: the same cache/counter action as `stepStar`,
plus a log of the identifiers for which the Classifier was invoked. -/
def stepStarTrace (dry_run : Bool) (limit : Option Nat)
    (llm : Repo → Option (String × String)) (now : String)
    (st : (Cache × Summary) × List String) (repo : Repo) :
    (Cache × Summary) × List String :=
  (stepStar dry_run limit llm now st.1 repo,
   if classifiesNow dry_run limit st.1.1 st.1.2 repo then
     st.2 ++ [repo.full_name]
   else st.2)

/-- The identifiers classified during one run of `process_new_stars`. -/
def processTraceLog (dry_run : Bool) (limit : Option Nat)
    (llm : Repo → Option (String × String)) (now : String)
    (stars : List Repo) (cache : Cache) : List String :=
  (stars.foldl (stepStarTrace dry_run limit llm now) ((cache, ⟨0, 0, 0⟩), [])).2

theorem stepStar_none_back (dr : Bool) (lim : Option Nat)
    (llm : Repo → Option (String × String)) (now : String)
    (c : Cache) (s : Summary) (repo : Repo) (k : String)
    (h : cacheLookup (stepStar dr lim llm now (c, s) repo).1 k = none) :
    cacheLookup c k = none := by
  by_contra hc
  have h1 : (cacheLookup c k).isSome := Option.ne_none_iff_isSome.mp hc
  have h2 := stepStar_mono dr lim llm now c s repo k h1
  rw [h] at h2
  cases h2

/-- The instrumented fold computes the same cache and counters as the plain
one. -/
theorem foldl_trace_fst (dr : Bool) (lim : Option Nat)
    (llm : Repo → Option (String × String)) (now : String) (stars : List Repo) :
    ∀ (st : Cache × Summary) (tr : List String),
      (stars.foldl (stepStarTrace dr lim llm now) (st, tr)).1 =
        stars.foldl (stepStar dr lim llm now) st := by
  induction stars with
  | nil => intro st tr; rfl
  | cons r rest ih =>
    intro st tr
    rw [List.foldl_cons, List.foldl_cons]
    exact ih _ _

/-- Invariant of the instrumented run: the trace stays duplicate-free, every
traced identifier is in the final cache, and every identifier traced during
the run was absent from the starting cache. -/
theorem foldl_trace_invariant (dr : Bool) (lim : Option Nat)
    (llm : Repo → Option (String × String)) (now : String) (stars : List Repo) :
    ∀ (c : Cache) (s : Summary) (tr : List String),
      tr.Nodup → (∀ x ∈ tr, (cacheLookup c x).isSome) →
      ((stars.foldl (stepStarTrace dr lim llm now) ((c, s), tr)).2.Nodup
       ∧ (∀ x ∈ (stars.foldl (stepStarTrace dr lim llm now) ((c, s), tr)).2,
            (cacheLookup
              (stars.foldl (stepStarTrace dr lim llm now) ((c, s), tr)).1.1
              x).isSome)
       ∧ (∀ x ∈ (stars.foldl (stepStarTrace dr lim llm now) ((c, s), tr)).2,
            x ∉ tr → cacheLookup c x = none)) := by
  induction stars with
  | nil =>
    intro c s tr hnd hsome
    exact ⟨hnd, hsome, fun x hx hnx => absurd hx hnx⟩
  | cons r rest ih =>
    intro c s tr hnd hsome
    rw [List.foldl_cons]
    rcases hcn : classifiesNow dr lim c s r with _ | _
    · -- classifier not invoked at this step: trace unchanged
      have hstep : stepStarTrace dr lim llm now ((c, s), tr) r =
          (stepStar dr lim llm now (c, s) r, tr) := by
        unfold stepStarTrace
        rw [hcn]
        simp
      rw [hstep]
      rcases hst : stepStar dr lim llm now (c, s) r with ⟨c', s'⟩
      have hsome' : ∀ x ∈ tr, (cacheLookup c' x).isSome := by
        intro x hx
        have := stepStar_mono dr lim llm now c s r x (hsome x hx)
        rw [hst] at this
        exact this
      obtain ⟨i1, i2, i3⟩ := ih c' s' tr hnd hsome'
      refine ⟨i1, i2, fun x hx hnx => ?_⟩
      have hc' := i3 x hx hnx
      have := stepStar_none_back dr lim llm now c s r x
      rw [hst] at this
      exact this hc'
    · -- classifier invoked: the identifier was absent and is appended
      have hmiss : cacheLookup c r.full_name = none := by
        have := congrArg (fun b => b = true) hcn
        simp [classifiesNow, Option.isNone_iff_eq_none] at hcn
        exact hcn.1
      have hnotr : r.full_name ∉ tr := by
        intro hmem
        have := hsome r.full_name hmem
        rw [hmiss] at this
        cases this
      have hstep : stepStarTrace dr lim llm now ((c, s), tr) r =
          (stepStar dr lim llm now (c, s) r, tr ++ [r.full_name]) := by
        unfold stepStarTrace
        rw [hcn]
        simp
      rw [hstep]
      rcases hst : stepStar dr lim llm now (c, s) r with ⟨c', s'⟩
      have hlim : limitHit dr lim s.processed_new = false := by
        simp [classifiesNow] at hcn
        exact hcn.2
      have hcls : cacheLookup c' r.full_name =
          some (categorize_with_llm llm now r) := by
        have := stepStar_fst_of_new dr lim llm now c s r hmiss hlim
        rw [hst] at this
        exact this
      have hnd' : (tr ++ [r.full_name]).Nodup := by
        simp [List.nodup_append, hnd, hnotr]
      have hsome' : ∀ x ∈ tr ++ [r.full_name], (cacheLookup c' x).isSome := by
        intro x hx
        rcases List.mem_append.mp hx with hx | hx
        · have := stepStar_mono dr lim llm now c s r x (hsome x hx)
          rw [hst] at this
          exact this
        · rw [List.mem_singleton.mp hx, hcls]
          rfl
      obtain ⟨i1, i2, i3⟩ := ih c' s' (tr ++ [r.full_name]) hnd' hsome'
      refine ⟨i1, i2, fun x hx hnx => ?_⟩
      by_cases hxtr : x ∈ tr ++ [r.full_name]
      · rcases List.mem_append.mp hxtr with hx' | hx'
        · exact absurd hx' hnx
        · rw [List.mem_singleton.mp hx']
          exact hmiss
      · have hc' := i3 x hx hxtr
        have := stepStar_none_back dr lim llm now c s r x
        rw [hst] at this
        exact this hc'

/-- C8: an identifier present in the loaded cache is never removed by a run
of `process_new_stars`, and the Classifier is never invoked for it; within
the run every identifier is classified at most once (the classification log
is duplicate-free), and since classified identifiers enter the cache and
cached identifiers are never classified again, an identifier is classified
at most once across the cache's lifetime. -/
theorem C8_at_most_once_classification (dr : Bool) (lim : Option Nat)
    (llm : Repo → Option (String × String)) (now : String)
    (stars : List Repo) (cache : Cache) (k : String)
    (h : (cacheLookup cache k).isSome) :
    (cacheLookup (process_new_stars dr lim llm now stars cache).1 k).isSome
    ∧ k ∉ processTraceLog dr lim llm now stars cache
    ∧ (processTraceLog dr lim llm now stars cache).Nodup := by
  obtain ⟨i1, i2, i3⟩ := foldl_trace_invariant dr lim llm now stars cache
    ⟨0, 0, 0⟩ [] List.nodup_nil (by simp)
  refine ⟨?_, ?_, i1⟩
  · unfold process_new_stars
    exact foldl_mono dr lim llm now stars cache ⟨0, 0, 0⟩ k h
  · intro hk
    have := i3 k hk (by simp)
    rw [this] at h
    cases h

theorem C8_at_most_once_classification_witness :
    (cacheLookup (process_new_stars false none (fun _ => none) "t"
        [⟨"o/a", some none, some [], some none, 3, "u"⟩,
         ⟨"o/b", some none, some [], some none, 4, "v"⟩]
        [("o/a", ⟨"Tools", "d", "u", 3, some none, "t0"⟩)]).1 "o/a").isSome
    ∧ "o/a" ∉ processTraceLog false none (fun _ => none) "t"
        [⟨"o/a", some none, some [], some none, 3, "u"⟩,
         ⟨"o/b", some none, some [], some none, 4, "v"⟩]
        [("o/a", ⟨"Tools", "d", "u", 3, some none, "t0"⟩)]
    ∧ (processTraceLog false none (fun _ => none) "t"
        [⟨"o/a", some none, some [], some none, 3, "u"⟩,
         ⟨"o/b", some none, some [], some none, 4, "v"⟩]
        [("o/a", ⟨"Tools", "d", "u", 3, some none, "t0"⟩)]).Nodup :=
  C8_at_most_once_classification false none (fun _ => none) "t"
    [⟨"o/a", some none, some [], some none, 3, "u"⟩,
     ⟨"o/b", some none, some [], some none, 4, "v"⟩]
    [("o/a", ⟨"Tools", "d", "u", 3, some none, "t0"⟩)] "o/a" (by decide)

/-- Outcome of a run phase at top level: either a value or a fatal exit with
the process exit code. -/
inductive LoadOutcome where
  | ok (cache : Cache)
  | fatal (exitCode : Nat)
deriving DecidableEq

/-- Embedding of `load_cache`: the filesystem is abstracted as
`cacheFile : Option String` (the contents of `.cache` if the file exists),
and `json.load` as `parseJson` (`none` = the file is not well-formed JSON
and `json.load` raises).  When no file exists the method returns `{}`. -/
def load_cache (parseJson : String → Option Cache)
    (cacheFile : Option String) : Option Cache :=
  match cacheFile with
  | some contents => parseJson contents
  | none => some []

/-- The `__main__` wrapper around the run: an exception escaping `run()` —
in particular a `json.JSONDecodeError` raised inside `load_cache` — is
caught and the process exits with code 1. -/
def loadCacheOutcome (parseJson : String → Option Cache)
    (cacheFile : Option String) : LoadOutcome :=
  match load_cache parseJson cacheFile with
  | some c => .ok c
  | none => .fatal 1

/-- C9: cache load returns the persisted mapping when the file exists and
parses, the empty mapping when no cache file exists, and a fatal exit with
code 1 when the file exists but is not well-formed. -/
theorem C9_load_cache (parseJson : String → Option Cache)
    (good bad : String) (m : Cache) :
    loadCacheOutcome parseJson none = .ok []
    ∧ (parseJson good = some m →
        loadCacheOutcome parseJson (some good) = .ok m)
    ∧ (parseJson bad = none →
        loadCacheOutcome parseJson (some bad) = .fatal 1) := by
  refine ⟨rfl, fun h => ?_, fun h => ?_⟩ <;>
    simp [loadCacheOutcome, load_cache, h]

theorem C9_load_cache_witness :
    loadCacheOutcome (fun s => if s = "{}" then some [] else none) none = .ok []
    ∧ loadCacheOutcome (fun s => if s = "{}" then some [] else none)
        (some "{}") = .ok []
    ∧ loadCacheOutcome (fun s => if s = "{}" then some [] else none)
        (some "not json") = .fatal 1 := by
  obtain ⟨h1, h2, h3⟩ := C9_load_cache
    (fun s => if s = "{}" then some [] else none) "{}" "not json" []
  exact ⟨h1, h2 (by decide), h3 (by decide)⟩

/-! Embedding of the pure core of `generate_readme`. -/

/-- One grouped entry, as built into `categories[category]` lists by
`generate_readme`.  `language` is `data.get("language", "")`: the empty
string when the key is missing, otherwise the stored Python value (possibly
`None`). -/
structure REntry where
  name : String
  url : String
  description : String
  stars : Nat
  language : Option String
deriving DecidableEq

def toREntry (name : String) (data : Entry) : REntry :=
  { name := name, url := data.url, description := data.description,
    stars := data.stars,
    language := match data.language with
      | none => some ""
      | some v => v }

/-- Append an entry to `categories[category]`, creating the key at the end
on first use (Python dict insertion order). -/
def addToGroups : List (String × List REntry) → String → REntry →
    List (String × List REntry)
  | [], cat, e => [(cat, [e])]
  | (c, es) :: rest, cat, e =>
    if c = cat then (c, es ++ [e]) :: rest
    else (c, es) :: addToGroups rest cat e

/-- The grouping loop of `generate_readme`: iterate the cache in insertion
order, appending each entry to its category's list. -/
def groupByCategory (cache : Cache) : List (String × List REntry) :=
  cache.foldl (fun gs p => addToGroups gs p.2.category (toREntry p.1 p.2)) []

/-- Dict indexing `categories[category]` (the key is always present when it
comes from the grouping's own key list; `[]` is never reached then). -/
def groupOf (gs : List (String × List REntry)) (cat : String) : List REntry :=
  match gs with
  | [] => []
  | (c, es) :: rest => if c = cat then es else groupOf rest cat

/-- Stable descending insertion by star count: the new entry goes after
every element with at least its stars, before the first strictly smaller
one.  Folding it left over the list is a stable sort, and all stable sorts
agree, so this computes the same list as Python's stable
`list.sort(key=lambda x: x["stars"], reverse=True)`. -/
def insertByStars (e : REntry) : List REntry → List REntry
  | [] => [e]
  | x :: xs => if e.stars > x.stars then e :: x :: xs else x :: insertByStars e xs

def sortByStarsDesc (l : List REntry) : List REntry :=
  l.foldl (fun acc e => insertByStars e acc) []

/-- Python string comparison: code-point lexicographic, as used by
`sorted(categories.keys())`. -/
def charListLt : List Char → List Char → Bool
  | [], [] => false
  | [], _ :: _ => true
  | _ :: _, [] => false
  | c :: cs, d :: ds => if c < d then true else if d < c then false else charListLt cs ds

def pyStrLt (s t : String) : Bool := charListLt s.data t.data

/-- Stable ascending insertion for category names. -/
def insertName (s : String) : List String → List String
  | [] => [s]
  | x :: xs => if pyStrLt s x then s :: x :: xs else x :: insertName s xs

/-- `sorted(categories.keys())`: category names in ascending lexicographic
order. -/
def sortNamesAsc (l : List String) : List String :=
  l.foldl (fun acc s => insertName s acc) []

/-- Replace every occurrence of the character `old` by the string `new`:
Python `str.replace(old, new)` for a one-character pattern. -/
def replaceAllChar (old : Char) (new : List Char) : List Char → List Char
  | [] => []
  | c :: cs => (if c = old then new else [c]) ++ replaceAllChar old new cs

/-- Python `str.lower()`, as a code-point-wise case mapping (complete on
ASCII, which covers the category labels). -/
def pyLower (s : String) : String := String.mk (s.data.map Char.toLower)

def pyReplaceChar (old : Char) (new : String) (s : String) : String :=
  String.mk (replaceAllChar old new.data s.data)

/-- The TOC link anchor:
`category.lower().replace(" ", "-").replace("/", "").replace("&", "")`. -/
def tocAnchor (category : String) : String :=
  pyReplaceChar '&' "" (pyReplaceChar '/' "" (pyReplaceChar ' ' "-" (pyLower category)))

/-- One line of the table of contents:
`f"- [{category}](#user-content-{anchor}) ({len(categories[category])})\n"`. -/
def tocLine (category : String) (count : Nat) : String :=
  "- [" ++ category ++ "](#user-content-" ++ tocAnchor category ++ ") (" ++
    toString count ++ ")\n"

/-- Python `s.split(sep)` for a one-character separator, on the character
list. -/
def splitOnChar (sep : Char) : List Char → List (List Char)
  | [] => [[]]
  | c :: cs =>
    let r := splitOnChar sep cs
    if c = sep then [] :: r
    else match r with
      | [] => [[c]]
      | g :: gs => (c :: g) :: gs

/-- `repo["name"].split("/")[1]`; `none` models the `IndexError` raised when
the name contains no slash. -/
def repoShortName (name : String) : Option String :=
  match (splitOnChar '/' name.data).get? 1 with
  | none => none
  | some cs => some (String.mk cs)

/-- One bullet line of a category section; `none` models the `IndexError`
from `repo["name"].split("/")[1]` for a key without a slash. -/
def entryLine (repo : REntry) : Option String :=
  match repoShortName repo.name with
  | none => none
  | some short =>
    let language := match repo.language with
      | some s => if s = "" then "" else " `" ++ s ++ "`"
      | none => ""
    let starsBadge := if repo.stars > 0 then "⭐ " ++ toString repo.stars else ""
    some ("- **[" ++ short ++ "](" ++ repo.url ++ ")** - " ++
      repo.description ++ language ++ " " ++ starsBadge ++ "\n")

def renderEntries : List REntry → Option String
  | [] => some ""
  | e :: es =>
    match entryLine e, renderEntries es with
    | some l, some rest => some (l ++ rest)
    | _, _ => none

/-- The category sections: `## {category}` followed by the entry lines and a
blank line. -/
def renderSections : List (String × List REntry) → Option String
  | [] => some ""
  | (cat, es) :: rest =>
    match renderEntries es, renderSections rest with
    | some body, some tail => some ("## " ++ cat ++ "\n\n" ++ body ++ "\n" ++ tail)
    | _, _ => none

/-- The grouping-and-sorting pipeline of `generate_readme`: categories in
ascending lexicographic order, each category's entries sorted by star count
descending with the stable sort. -/
def organizeCache (cache : Cache) : List (String × List REntry) :=
  let categories := groupByCategory cache
  (sortNamesAsc (categories.map Prod.fst)).map
    (fun c => (c, sortByStarsDesc (groupOf categories c)))

/-- The full README text built by `generate_readme` (pure string-building
core; `now` stands for `datetime.utcnow().strftime("%Y-%m-%d %H:%M UTC")`,
file writes and prints omitted).  `none` models an uncaught `IndexError`
from a cache key without a slash. -/
def generate_readme_content (now : String) (cache : Cache) : Option String :=
  let categories := groupByCategory cache
  let sortedCategories := sortNamesAsc (categories.map Prod.fst)
  let header := "# My Awesome List\n\n" ++
    "> A curated list of my GitHub stars, automatically organized and described by AI 🤖\n\n" ++
    "*Last updated: " ++ now ++ " | Total repos: " ++ toString cache.length ++
    "*\n\n"
  let toc := "## Contents\n\n" ++
    String.join (sortedCategories.map
      (fun category => tocLine category (groupOf categories category).length)) ++
    "\n---\n\n"
  match renderSections (organizeCache cache) with
  | none => none
  | some sections =>
    some (header ++ toc ++ sections ++ "---\n\n" ++
      "*Generated automatically by [MyAwsomeList](https://github.com/felixscode/MyAwsomeList) using Claude API*\n")

/-- Well-formed cache keys: of the form `owner/name`, i.e. containing a
slash. -/
def WFCache (cache : Cache) : Prop := ∀ p ∈ cache, '/' ∈ p.1.data

/-! Sorting lemmas: the per-category sort is descending and stable. -/

theorem mem_insertByStars (e x : REntry) (l : List REntry) :
    x ∈ insertByStars e l ↔ x = e ∨ x ∈ l := by
  induction l with
  | nil => simp [insertByStars]
  | cons y ys ih =>
    by_cases h : e.stars > y.stars
    · simp only [insertByStars, if_pos h]
      simp [List.mem_cons]
    · simp only [insertByStars, if_neg h]
      simp [List.mem_cons, ih]
      tauto

theorem pairwise_insertByStars (e : REntry) (l : List REntry)
    (h : List.Pairwise (fun a b => b.stars ≤ a.stars) l) :
    List.Pairwise (fun a b => b.stars ≤ a.stars) (insertByStars e l) := by
  induction l with
  | nil => simp [insertByStars]
  | cons y ys ih =>
    rcases List.pairwise_cons.mp h with ⟨hy, hys⟩
    by_cases hgt : e.stars > y.stars
    · rw [show insertByStars e (y :: ys) = e :: y :: ys by
        simp only [insertByStars, if_pos hgt]]
      refine List.pairwise_cons.mpr ⟨?_, h⟩
      intro b hb
      rcases List.mem_cons.mp hb with hb | hb
      · rw [hb]; omega
      · have := hy b hb; omega
    · rw [show insertByStars e (y :: ys) = y :: insertByStars e ys by
        simp only [insertByStars, if_neg hgt]]
      refine List.pairwise_cons.mpr ⟨?_, ih hys⟩
      intro b hb
      rcases (mem_insertByStars e b ys).mp hb with hb | hb
      · rw [hb]; omega
      · exact hy b hb

theorem pairwise_sortByStarsDesc (l : List REntry) :
    List.Pairwise (fun a b => b.stars ≤ a.stars) (sortByStarsDesc l) := by
  suffices h : ∀ acc, List.Pairwise (fun a b => b.stars ≤ a.stars) acc →
      List.Pairwise (fun a b => b.stars ≤ a.stars)
        (l.foldl (fun acc e => insertByStars e acc) acc) by
    exact h [] (by simp)
  induction l with
  | nil => intro acc h; simpa using h
  | cons e es ih =>
    intro acc h
    rw [List.foldl_cons]
    exact ih _ (pairwise_insertByStars e acc h)

theorem filter_insertByStars (e : REntry) (l : List REntry) (s : Nat)
    (hs : List.Pairwise (fun a b => b.stars ≤ a.stars) l) :
    (insertByStars e l).filter (fun x => x.stars == s) =
      if e.stars = s then l.filter (fun x => x.stars == s) ++ [e]
      else l.filter (fun x => x.stars == s) := by
  induction l with
  | nil =>
    by_cases h : e.stars = s <;> simp [insertByStars, h]
  | cons y ys ih =>
    rcases List.pairwise_cons.mp hs with ⟨hy, hys⟩
    by_cases hgt : e.stars > y.stars
    · rw [show insertByStars e (y :: ys) = e :: y :: ys by
        simp only [insertByStars, if_pos hgt]]
      by_cases hes : e.stars = s
      · have hnone : (y :: ys).filter (fun x => x.stars == s) = [] := by
          rw [List.filter_eq_nil_iff]
          intro a ha
          rcases List.mem_cons.mp ha with ha | ha
          · subst ha; simp; omega
          · have := hy a ha; simp; omega
        simp [List.filter_cons, hes, hnone]
      · simp [List.filter_cons, hes]
    · rw [show insertByStars e (y :: ys) = y :: insertByStars e ys by
        simp only [insertByStars, if_neg hgt]]
      by_cases hes : e.stars = s <;> by_cases hysy : y.stars = s <;>
        simp [List.filter_cons, hes, hysy, ih hys]

theorem filter_sortByStarsDesc (l : List REntry) (s : Nat) :
    (sortByStarsDesc l).filter (fun x => x.stars == s) =
      l.filter (fun x => x.stars == s) := by
  suffices h : ∀ acc, List.Pairwise (fun a b => b.stars ≤ a.stars) acc →
      (l.foldl (fun acc e => insertByStars e acc) acc).filter
          (fun x => x.stars == s) =
        acc.filter (fun x => x.stars == s) ++
          l.filter (fun x => x.stars == s) by
    simpa using h [] (by simp)
  induction l with
  | nil => intro acc h; simp
  | cons e es ih =>
    intro acc h
    rw [List.foldl_cons, ih _ (pairwise_insertByStars e acc h),
      filter_insertByStars e acc s h]
    by_cases hes : e.stars = s <;> simp [List.filter_cons, hes]

/-! Membership lemmas: every rendered entry comes from the cache. -/

theorem mem_sortByStarsDesc (l : List REntry) (x : REntry)
    (h : x ∈ sortByStarsDesc l) : x ∈ l := by
  suffices hh : ∀ acc, x ∈ l.foldl (fun acc e => insertByStars e acc) acc →
      x ∈ acc ∨ x ∈ l by
    rcases hh [] h with h' | h'
    · cases h'
    · exact h'
  clear h
  induction l with
  | nil => intro acc h'; exact Or.inl h'
  | cons e es ih =>
    intro acc h'
    rw [List.foldl_cons] at h'
    rcases ih (insertByStars e acc) h' with h'' | h''
    · rcases (mem_insertByStars e x acc).mp h'' with h3 | h3
      · exact Or.inr (by simp [h3])
      · exact Or.inl h3
    · exact Or.inr (List.mem_cons_of_mem e h'')

theorem mem_groupOf (gs : List (String × List REntry)) (cat : String)
    (x : REntry) (h : x ∈ groupOf gs cat) : ∃ p ∈ gs, x ∈ p.2 := by
  induction gs with
  | nil => simp [groupOf] at h
  | cons p rest ih =>
    obtain ⟨c, es⟩ := p
    simp only [groupOf] at h
    by_cases hc : c = cat
    · rw [if_pos hc] at h
      exact ⟨(c, es), by simp, h⟩
    · rw [if_neg hc] at h
      obtain ⟨q, hq, hx⟩ := ih h
      exact ⟨q, by simp [hq], hx⟩

theorem mem_entries_addToGroups (gs : List (String × List REntry))
    (cat : String) (e : REntry) (p : String × List REntry)
    (hp : p ∈ addToGroups gs cat e) (x : REntry) (hx : x ∈ p.2) :
    (∃ q ∈ gs, x ∈ q.2) ∨ x = e := by
  induction gs with
  | nil =>
    simp only [addToGroups, List.mem_singleton] at hp
    subst hp
    right
    simpa using hx
  | cons g rest ih =>
    obtain ⟨c, es⟩ := g
    simp only [addToGroups] at hp
    by_cases hc : c = cat
    · rw [if_pos hc] at hp
      rcases List.mem_cons.mp hp with hp | hp
      · subst hp
        rcases List.mem_append.mp hx with hx | hx
        · exact Or.inl ⟨(c, es), by simp, hx⟩
        · exact Or.inr (List.mem_singleton.mp hx)
      · exact Or.inl ⟨p, by simp [hp], hx⟩
    · rw [if_neg hc] at hp
      rcases List.mem_cons.mp hp with hp | hp
      · subst hp
        exact Or.inl ⟨(c, es), by simp, hx⟩
      · rcases ih hp with h | h
        · obtain ⟨q, hq, hxq⟩ := h
          exact Or.inl ⟨q, by simp [hq], hxq⟩
        · exact Or.inr h

theorem mem_entries_groupFold (cache : Cache) :
    ∀ (gs₀ : List (String × List REntry)) (p : String × List REntry),
      p ∈ cache.foldl
        (fun gs q => addToGroups gs q.2.category (toREntry q.1 q.2)) gs₀ →
      ∀ x ∈ p.2, (∃ q ∈ gs₀, x ∈ q.2) ∨ ∃ q ∈ cache, x = toREntry q.1 q.2 := by
  induction cache with
  | nil =>
    intro gs₀ p hp x hx
    exact Or.inl ⟨p, hp, hx⟩
  | cons q rest ih =>
    intro gs₀ p hp x hx
    rw [List.foldl_cons] at hp
    rcases ih _ p hp x hx with h | h
    · obtain ⟨q', hq', hxq⟩ := h
      rcases mem_entries_addToGroups gs₀ q.2.category (toREntry q.1 q.2)
        q' hq' x hxq with h2 | h2
      · obtain ⟨q'', hq'', hx2⟩ := h2
        exact Or.inl ⟨q'', hq'', hx2⟩
      · exact Or.inr ⟨q, by simp, h2⟩
    · obtain ⟨q', hq', he⟩ := h
      exact Or.inr ⟨q', by simp [hq'], he⟩

theorem mem_entries_groupByCategory (cache : Cache) (p : String × List REntry)
    (hp : p ∈ groupByCategory cache) (x : REntry) (hx : x ∈ p.2) :
    ∃ q ∈ cache, x = toREntry q.1 q.2 := by
  rcases mem_entries_groupFold cache [] p hp x hx with h | h
  · obtain ⟨q, hq, _⟩ := h
    cases hq
  · exact h

/-! Totality of the entry renderer for well-formed keys. -/

theorem splitOnChar_ne_nil (sep : Char) (cs : List Char) :
    splitOnChar sep cs ≠ [] := by
  induction cs with
  | nil => simp [splitOnChar]
  | cons c cs ih =>
    simp only [splitOnChar]
    by_cases h : c = sep
    · simp [h]
    · rcases hr : splitOnChar sep cs with _ | ⟨g, gs⟩
      · simp [h, hr]
      · simp [h, hr]

theorem splitOnChar_length (sep : Char) (cs : List Char) (h : sep ∈ cs) :
    2 ≤ (splitOnChar sep cs).length := by
  induction cs with
  | nil => cases h
  | cons c cs ih =>
    simp only [splitOnChar]
    by_cases hc : c = sep
    · rw [if_pos hc]
      have hne := splitOnChar_ne_nil sep cs
      have hpos : 0 < (splitOnChar sep cs).length := List.length_pos.mpr hne
      simp
      omega
    · rw [if_neg hc]
      have hm : sep ∈ cs := by
        rcases List.mem_cons.mp h with h' | h'
        · exact absurd h'.symm hc
        · exact h'
      have h2 := ih hm
      rcases hr : splitOnChar sep cs with _ | ⟨g, gs⟩
      · exact absurd hr (splitOnChar_ne_nil sep cs)
      · rw [hr] at h2
        simpa using h2

theorem repoShortName_isSome (name : String) (h : '/' ∈ name.data) :
    (repoShortName name).isSome := by
  unfold repoShortName
  rcases hg : (splitOnChar '/' name.data).get? 1 with _ | cs
  · rw [List.get?_eq_none] at hg
    have := splitOnChar_length '/' name.data h
    omega
  · rfl

theorem entryLine_isSome (e : REntry) (h : '/' ∈ e.name.data) :
    (entryLine e).isSome := by
  unfold entryLine
  obtain ⟨short, hs⟩ := Option.isSome_iff_exists.mp (repoShortName_isSome e.name h)
  rw [hs]
  rfl

theorem renderEntries_isSome (es : List REntry)
    (h : ∀ e ∈ es, (entryLine e).isSome) : (renderEntries es).isSome := by
  induction es with
  | nil => rfl
  | cons e es ih =>
    obtain ⟨l, hl⟩ := Option.isSome_iff_exists.mp (h e (by simp))
    obtain ⟨rest, hrest⟩ := Option.isSome_iff_exists.mp
      (ih (fun x hx => h x (by simp [hx])))
    simp [renderEntries, hl, hrest]

theorem renderSections_isSome (secs : List (String × List REntry))
    (h : ∀ p ∈ secs, (renderEntries p.2).isSome) :
    (renderSections secs).isSome := by
  induction secs with
  | nil => rfl
  | cons p rest ih =>
    obtain ⟨c, es⟩ := p
    obtain ⟨body, hbody⟩ := Option.isSome_iff_exists.mp (h (c, es) (by simp))
    obtain ⟨tl, htl⟩ := Option.isSome_iff_exists.mp
      (ih (fun q hq => h q (by simp [hq])))
    simp [renderSections, hbody, htl]

/-- C5: every per-category list emitted by the rendering pipeline is sorted
by star count descending, and ties keep the relative order produced by the
grouping step (the entries of any given star count appear exactly as in the
grouped list); in particular a category with star counts [5, 20, 20, 1] is
rendered as the two 20s in original order, then 5, then 1. -/
theorem C5_category_sorting (cache : Cache) (cat : String) (l : List REntry)
    (s : Nat) (h : (cat, l) ∈ organizeCache cache) :
    (List.Pairwise (fun a b => b.stars ≤ a.stars) l
     ∧ l.filter (fun x => x.stars == s) =
        (groupOf (groupByCategory cache) cat).filter (fun x => x.stars == s))
    ∧ sortByStarsDesc
        [⟨"o/a", "u", "d", 5, none⟩, ⟨"o/b", "u", "d", 20, none⟩,
         ⟨"o/c", "u", "d", 20, none⟩, ⟨"o/d", "u", "d", 1, none⟩] =
      [⟨"o/b", "u", "d", 20, none⟩, ⟨"o/c", "u", "d", 20, none⟩,
       ⟨"o/a", "u", "d", 5, none⟩, ⟨"o/d", "u", "d", 1, none⟩] := by
  constructor
  · simp only [organizeCache, List.mem_map] at h
    obtain ⟨c, hc, heq⟩ := h
    have h1 : c = cat := congrArg Prod.fst heq
    have h2 : sortByStarsDesc (groupOf (groupByCategory cache) c) = l :=
      congrArg Prod.snd heq
    subst h1
    subst h2
    exact ⟨pairwise_sortByStarsDesc _, filter_sortByStarsDesc _ s⟩
  · decide

theorem C5_category_sorting_witness :
    (List.Pairwise (fun a b => b.stars ≤ a.stars)
        [(⟨"o/x", "u", "d", 5, none⟩ : REntry)]
     ∧ [(⟨"o/x", "u", "d", 5, none⟩ : REntry)].filter (fun x => x.stars == 5) =
        (groupOf (groupByCategory
            [("o/x", ⟨"Cat", "d", "u", 5, some none, "t"⟩)]) "Cat").filter
          (fun x => x.stars == 5))
    ∧ sortByStarsDesc
        [⟨"o/a", "u", "d", 5, none⟩, ⟨"o/b", "u", "d", 20, none⟩,
         ⟨"o/c", "u", "d", 20, none⟩, ⟨"o/d", "u", "d", 1, none⟩] =
      [⟨"o/b", "u", "d", 20, none⟩, ⟨"o/c", "u", "d", 20, none⟩,
       ⟨"o/a", "u", "d", 5, none⟩, ⟨"o/d", "u", "d", 1, none⟩] :=
  C5_category_sorting [("o/x", ⟨"Cat", "d", "u", 5, some none, "t"⟩)] "Cat"
    [⟨"o/x", "u", "d", 5, none⟩] 5 (by decide)

/-- Link anchor as claim C6 words it: the label lower-cased with spaces
removed and every "/" and "&" character stripped. -/
def claimAnchorC6 (category : String) : String :=
  pyReplaceChar '&' "" (pyReplaceChar '/' "" (pyReplaceChar ' ' "" (pyLower category)))

/-- Single left-to-right pass building the amended anchor: lower-case each
character, map spaces to hyphens, drop "/" and "&". -/
def anchorCharsAmendedList : List Char → List Char
  | [] => []
  | c :: cs =>
    (if Char.toLower c = ' ' then ['-']
     else if Char.toLower c = '/' then []
     else if Char.toLower c = '&' then []
     else [Char.toLower c]) ++ anchorCharsAmendedList cs

def anchorAmended (category : String) : String :=
  String.mk (anchorCharsAmendedList category.data)

/-- C6 counterexample: for the label "Machine Learning" the code's TOC line
carries the anchor "machine-learning" (spaces become hyphens), not the
"machinelearning" that the claim's space-removal rule yields, so the claimed
line differs from the actual one. -/
theorem C6_counterexample_anchor :
    tocLine "Machine Learning" 2 =
      "- [Machine Learning](#user-content-machine-learning) (2)\n"
    ∧ claimAnchorC6 "Machine Learning" = "machinelearning"
    ∧ tocLine "Machine Learning" 2 ≠
        "- [Machine Learning](#user-content-" ++
          claimAnchorC6 "Machine Learning" ++ ") (2)\n" :=
  ⟨by decide, by decide, by decide⟩

theorem replaceAllChar_append (old : Char) (new xs ys : List Char) :
    replaceAllChar old new (xs ++ ys) =
      replaceAllChar old new xs ++ replaceAllChar old new ys := by
  induction xs with
  | nil => rfl
  | cons c cs ih => simp [replaceAllChar, ih]

/-- The three sequential `str.replace` passes over the lower-cased label
compute the same characters as the single amended-spec pass. -/
theorem anchor_chain (cs : List Char) :
    replaceAllChar '&' [] (replaceAllChar '/' []
      (replaceAllChar ' ' ['-'] (cs.map Char.toLower))) =
      anchorCharsAmendedList cs := by
  induction cs with
  | nil => rfl
  | cons c cs ih =>
    rw [List.map_cons]
    rw [show replaceAllChar ' ' ['-'] (Char.toLower c :: List.map Char.toLower cs) =
        (if Char.toLower c = ' ' then ['-'] else [Char.toLower c]) ++
          replaceAllChar ' ' ['-'] (List.map Char.toLower cs) from rfl]
    rw [replaceAllChar_append, replaceAllChar_append]
    by_cases h1 : Char.toLower c = ' '
    · simp [anchorCharsAmendedList, h1, replaceAllChar, ih]
    · by_cases h2 : Char.toLower c = '/'
      · simp [anchorCharsAmendedList, h1, h2, replaceAllChar, ih]
      · by_cases h3 : Char.toLower c = '&'
        · simp [anchorCharsAmendedList, h1, h2, h3, replaceAllChar, ih]
        · simp [anchorCharsAmendedList, h1, h2, h3, replaceAllChar, ih]

theorem tocAnchor_eq_anchorAmended (category : String) :
    tocAnchor category = anchorAmended category := by
  unfold tocAnchor anchorAmended pyReplaceChar pyLower
  exact congrArg String.mk (anchor_chain category.data)

/-- C6 amended: the TOC line for a category uses a link anchor equal to the
label lower-cased with spaces replaced by hyphens and every "/" and "&"
character stripped, followed by the category's entry count in
parentheses. -/
theorem C6_amended_anchor (category : String) (count : Nat) :
    tocLine category count =
      "- [" ++ category ++ "](#user-content-" ++ anchorAmended category ++
        ") (" ++ toString count ++ ")\n" := by
  unfold tocLine
  rw [tocAnchor_eq_anchorAmended]

/-- C7: rendering never fails on a well-formed cache (every key of the form
`owner/name`, i.e. containing a slash); on the empty mapping it yields the
near-empty document — header, empty table of contents, no sections,
footer — with zero categories. -/
theorem C7_renderer_total (now : String) (cache : Cache) (hwf : WFCache cache) :
    (generate_readme_content now cache).isSome
    ∧ generate_readme_content now [] =
        some ("# My Awesome List\n\n" ++
          "> A curated list of my GitHub stars, automatically organized and described by AI 🤖\n\n" ++
          "*Last updated: " ++ now ++ " | Total repos: " ++ "0" ++ "*\n\n" ++
          "## Contents\n\n" ++ "\n---\n\n" ++ "---\n\n" ++
          "*Generated automatically by [MyAwsomeList](https://github.com/felixscode/MyAwsomeList) using Claude API*\n")
    ∧ organizeCache ([] : Cache) = [] := by
  refine ⟨?_, ?_, rfl⟩
  · have hsec : (renderSections (organizeCache cache)).isSome := by
      apply renderSections_isSome
      intro p hp
      apply renderEntries_isSome
      intro e he
      simp only [organizeCache, List.mem_map] at hp
      obtain ⟨c, hc, heq⟩ := hp
      have h2 : sortByStarsDesc (groupOf (groupByCategory cache) c) = p.2 :=
        congrArg Prod.snd heq
      rw [← h2] at he
      have he2 := mem_sortByStarsDesc _ _ he
      obtain ⟨q, hq, hxq⟩ := mem_groupOf _ _ _ he2
      obtain ⟨q', hq', hteq⟩ := mem_entries_groupByCategory cache q hq e hxq
      apply entryLine_isSome
      rw [hteq]
      exact hwf q' hq'
    obtain ⟨secs, hsecs⟩ := Option.isSome_iff_exists.mp hsec
    simp only [generate_readme_content]
    rw [hsecs]
    rfl
  · have h0 : toString (List.length ([] : Cache)) = "0" := rfl
    simp only [generate_readme_content, groupByCategory, organizeCache,
      sortNamesAsc, renderSections, List.foldl_nil, List.map_nil,
      String.join, h0]
    simp [String.append_assoc]

theorem C7_renderer_total_witness :
    (generate_readme_content "2024-01-01 00:00 UTC"
      [("o/r", ⟨"C", "d", "u", 1, some none, "t"⟩)]).isSome
    ∧ generate_readme_content "2024-01-01 00:00 UTC" [] =
        some ("# My Awesome List\n\n" ++
          "> A curated list of my GitHub stars, automatically organized and described by AI 🤖\n\n" ++
          "*Last updated: " ++ "2024-01-01 00:00 UTC" ++ " | Total repos: " ++
          "0" ++ "*\n\n" ++ "## Contents\n\n" ++ "\n---\n\n" ++ "---\n\n" ++
          "*Generated automatically by [MyAwsomeList](https://github.com/felixscode/MyAwsomeList) using Claude API*\n")
    ∧ organizeCache ([] : Cache) = [] :=
  C7_renderer_total "2024-01-01 00:00 UTC"
    [("o/r", ⟨"C", "d", "u", 1, some none, "t"⟩)]
    (by
      intro p hp
      rw [List.mem_singleton.mp hp]
      decide)

end AwesomeList
